import Mathlib

/-!
Verification of the crossword CSP solver in `generate.py` (class
`CrosswordCreator`).

The Python code is shallowly embedded as executable Lean functions.
Modelling conventions:

* A slot (`Variable` in the Python code, produced by the external
  `crossword.py` loader) is identified by a natural number; the puzzle
  model (`Crossword` below) records the list of slots, each slot's
  length, the shared vocabulary and the overlap table.  `crossword.py`
  is not part of the sources under verification; only the four queries
  that `generate.py` uses (variables, words, overlaps, neighbors) are
  modelled, following the spec's Puzzle Model contract (spec section
  4.1).  In `crossword.py` the overlap dictionary has an entry for
  every ordered pair of distinct slots (None when they do not cross),
  and `neighbors(v)` is the set of slots with a non-None overlap with
  `v`; we model the non-None entries as a finite table and derive
  `neighbors` from it.
* Python `dict`s and `set`s iterate in a definite order at run time
  (insertion order for dicts, an arbitrary but fixed order for sets).
  The embedding determinizes those orders as Lean lists; no claim
  below depends on a particular set order except through concrete
  examples, which fix one realizable order.
* Python strings are `List Char`; the subscript `w[i]` is `charAt`.
  All subscripts reached at run time are in bounds.
* `self.domains` is a mutable dict mapping each slot to a mutable set
  of words.  It is embedded as a function `Nat → List Word` passed and
  returned explicitly.  The aliasing behaviour of `backtrack`'s
  snapshot (`copy_domains = deepcopy(self.domains)` before the loop,
  `self.domains = copy_domains` after a failed candidate) is modelled
  faithfully: the first loop iteration mutates the object
  `self.domains` pointed to at entry, every later iteration mutates
  the snapshot object itself, and a recursive call mutates whatever
  object it is handed (its first iteration writes to it directly).
  `backtrack` therefore returns, besides its result, the final state
  of the domains object it was handed and the final state of the
  assignment dict.
* The recursive functions `ac3` and `backtrack` are given explicit
  fuel so that they are structurally recursive and compute by kernel
  reduction.  Fuel exhaustion returns the neutral failure value
  (`false` / `none` with inputs unchanged), so every theorem of the
  form "if the function returns success then ..." is stated for all
  fuel values, and the concrete executions below all run to genuine
  completion within the fuel supplied by the wrappers.
-/

/-- Python strings, as lists of characters. -/
abbrev Word := List Char

/-- `w[i]` for an in-bounds index (out-of-bounds accesses would raise in
Python and are never reached; the default is irrelevant). -/
def charAt (w : Word) (i : Nat) : Char := w.getD i ' '

/-- The immutable puzzle model handed to `CrosswordCreator.__init__`:
slot identifiers, each slot's length, the vocabulary, and the table of
overlaps `((x, y), (ix, iy))` meaning `x[ix] == y[iy]`. -/
structure Crossword where
  vars : List Nat
  length : Nat → Nat
  words : List Word
  overlapsT : List ((Nat × Nat) × (Nat × Nat))

namespace Crossword

/-- `self.crossword.overlaps[x, y]`: `some (ix, iy)` when the two slots
cross, `none` otherwise (`crossword.py` stores `None` for
non-crossing pairs). -/
def overlaps (cw : Crossword) (x y : Nat) : Option (Nat × Nat) :=
  (cw.overlapsT.find? (fun e => e.1 == (x, y))).map (·.2)

/-- `self.crossword.neighbors(x)`: the slots that share a cell with
`x`, i.e. those with a non-`None` overlap (`crossword.py` computes
exactly this set; the iteration order is determinized as the
`variables` order). -/
def neighbors (cw : Crossword) (x : Nat) : List Nat :=
  cw.vars.filter (fun v => v != x && (cw.overlaps x v).isSome)

end Crossword

/-- Well-formedness of the puzzle model, guaranteed by the external
loader (`crossword.py` builds the overlap table from grid geometry):
slot identifiers are distinct, every overlap entry relates two
distinct slots of the puzzle, the table is symmetric with swapped
offsets, and it has at most one entry per ordered pair. -/
structure CrosswordWF (cw : Crossword) : Prop where
  nodupVars : cw.vars.Nodup
  tableMem : ∀ e ∈ cw.overlapsT,
    e.1.1 ∈ cw.vars ∧ e.1.2 ∈ cw.vars ∧ e.1.1 ≠ e.1.2
  tableSymm : ∀ e ∈ cw.overlapsT,
    ((e.1.2, e.1.1), (e.2.2, e.2.1)) ∈ cw.overlapsT
  tableFun : ∀ e ∈ cw.overlapsT, ∀ e2 ∈ cw.overlapsT, e.1 = e2.1 → e.2 = e2.2

/-- The mutable `self.domains` store: candidate words per slot. -/
abbrev Domains := Nat → List Word

/-- `self.domains[x] = ws` (in-place update of one entry). -/
def updateD (d : Domains) (x : Nat) (ws : List Word) : Domains :=
  fun v => if v = x then ws else d v

/-- `self.domains` as initialized by `__init__`: every slot starts with
a copy of the full vocabulary. -/
def initDomains (cw : Crossword) : Domains := fun _ => cw.words

/-- The `assignment` dict mapping slots to words, as an association
list (keys are unique in every reachable state). -/
abbrev Assignment := List (Nat × Word)

/-- `var in assignment` (dict key membership). -/
def assignedB (a : Assignment) (v : Nat) : Bool := a.any (fun p => p.1 == v)

/-- `assignment[v]` lookup. -/
def lookupA (a : Assignment) (v : Nat) : Option Word :=
  (a.find? (fun p => p.1 == v)).map (·.2)

/-- `assignment.update({var: word})` (the key is always fresh at the
call sites, so the dict gains one entry). -/
def insertA (a : Assignment) (v : Nat) (w : Word) : Assignment := (v, w) :: a

/-- `assignment.pop(var)` (removes the entry with key `var`). -/
def eraseA (a : Assignment) (v : Nat) : Assignment :=
  a.filter (fun p => p.1 != v)

/-- `enforce_node_consistency` (generate.py lines 98-111): drop from
every domain the words whose length differs from the slot's length.
The Python collects the offending words of each slot in a scratch list
and then removes them; the net effect per slot is a filter. -/
def enforce_node_consistency (cw : Crossword) (d : Domains) : Domains :=
  fun v => (d v).filter (fun w => w.length == cw.length v)

/-- `revise(x, y)` (lines 113-141).  When the pair has no overlap the
function returns immediately with no change.  Otherwise, for each word
`word_x` of `domain(x)` the inner loop breaks on the first
`word_y` with `word_x[o0] == word_y[o1]` and counts every mismatch, so
`count == len(domain(y))` holds exactly when no `word_y` matches;
those words are collected and removed, i.e. `domain(x)` is filtered to
the words with a match, and `revised` is true iff some word had no
match.  Returns the updated store paired with `revised`. -/
def revise (cw : Crossword) (d : Domains) (x y : Nat) : Domains × Bool :=
  match cw.overlaps x y with
  | none => (d, false)
  | some (i, j) =>
    let keep := (d x).filter (fun wx => (d y).any (fun wy => charAt wx i == charAt wy j))
    let revised := (d x).any (fun wx => !(d y).any (fun wy => charAt wx i == charAt wy j))
    (updateD d x keep, revised)

/-- The initial worklist of `ac3` when `arcs is None` (lines 153-156):
the Python iterates over the keys of `crossword.overlaps`, which are
all ordered pairs of distinct slots (the `if arc is not None` test
compares a key, never `None`, and is always true). -/
def allArcs (cw : Crossword) : List (Nat × Nat) :=
  cw.vars.flatMap (fun v1 => (cw.vars.filter (fun v2 => v2 != v1)).map (fun v2 => (v1, v2)))

/-- The worklist loop of `ac3` (lines 160-169): pop the head arc,
revise; on a change, fail if `domain(x)` emptied, otherwise re-enqueue
`(z, x)` for every neighbor `z` of `x` other than `y`.  Each step
consumes one unit of fuel; exhaustion returns failure with the store
as is (the wrapper below always supplies enough fuel for the loop to
empty its worklist). -/
def ac3go (cw : Crossword) : Nat → Domains → List (Nat × Nat) → Domains × Bool
  | 0, d, _ => (d, false)
  | _ + 1, d, [] => (d, true)
  | fuel + 1, d, (x, y) :: rest =>
    let r := revise cw d x y
    if r.2 then
      if r.1 x = [] then (r.1, false)
      else ac3go cw fuel r.1
        (rest ++ ((cw.neighbors x).filter (fun z => z != y)).map (fun z => (z, x)))
    else ac3go cw fuel d rest

/-- Total domain size, used to bound the number of `ac3` loop steps:
every step either removes at least one word from some slot's domain
(enqueueing at most `|variables|` arcs) or shortens the worklist. -/
def totalSize (cw : Crossword) (d : Domains) : Nat :=
  (cw.vars.map (fun v => (d v).length)).sum

/-- `ac3(arcs)` (lines 143-169): run the worklist loop starting from
either all arcs of the puzzle (`arcs is None`) or a caller-supplied
list.  Returns the final store and the success flag. -/
def ac3 (cw : Crossword) (d : Domains) (arcs : Option (List (Nat × Nat))) : Domains × Bool :=
  let q := match arcs with
    | none => allArcs cw
    | some l => l
  ac3go cw (q.length + totalSize cw d * (cw.vars.length + 1) + 1) d q

/-- `assignment_complete` (lines 171-178): compares the number of
assigned slots with the number of domain-store keys, which is the
number of puzzle slots. -/
def assignment_complete (cw : Crossword) (a : Assignment) : Bool :=
  a.length == cw.vars.length

/-- `consistent` (lines 180-194): false when two assigned slots hold
the identical word (`len(values) != len(set(values))`), or when an
assigned pair of neighboring slots disagrees at the overlap offsets.
The overlap of an assigned pair reached here is never `None` because
`neighbors` only returns crossing slots; the `none` branch is
unreachable. -/
def consistentB (cw : Crossword) (a : Assignment) : Bool :=
  decide ((a.map (·.2)).Nodup) &&
    a.all (fun p =>
      (cw.neighbors p.1).all (fun v2 =>
        match lookupA a v2 with
        | none => true
        | some w2 =>
          match cw.overlaps p.1 v2 with
          | none => true
          | some (i, j) => charAt p.2 i == charAt w2 j))

/-- The cost computed by `order_domain_values` for one candidate word
(lines 210-218): for every neighbor, one point if the word itself sits
in the neighbor's domain, plus one point for every word of the
neighbor's domain that disagrees at the overlap offsets.  (Neighbors
always have an overlap; the `none` branch is unreachable.) -/
def wordCost (cw : Crossword) (d : Domains) (var : Nat) (word : Word) : Nat :=
  (cw.neighbors var).foldl
    (fun acc nb =>
      let memCount := if (d nb).contains word then 1 else 0
      match cw.overlaps var nb with
      | none => acc + memCount
      | some (i, j) =>
        acc + memCount + ((d nb).filter (fun w => !(charAt word i == charAt w j))).length)
    0

/-- Stable insertion of a word into a cost-sorted list: the new word
is placed after every word of strictly smaller cost and before the
first word of greater or equal cost, which together with `sortByCost`
below reproduces the unique stable ascending order of Python's
`sorted`. -/
def insertByCost (c : Word → Nat) (w : Word) : List Word → List Word
  | [] => [w]
  | y :: ys => if c y < c w then y :: insertByCost c w ys else w :: y :: ys

/-- Stable ascending sort by cost.  Python's `sorted(values,
key=values.get)` is a stable ascending sort of the dict keys (which
are the words of `domain(var)` in domain order); a stable ascending
sort is unique, so this insertion sort computes the same list. -/
def sortByCost (c : Word → Nat) : List Word → List Word
  | [] => []
  | x :: xs => insertByCost c x (sortByCost c xs)

/-- `order_domain_values(var, assignment)` (lines 196-219).  The guard
`if word in assignment: continue` on line 207 tests membership of the
word among the dict *keys* of `assignment`; the keys are `Variable`
objects and a string never equals a `Variable`, so the test is always
false and no word is skipped.  The assignment argument is therefore
unused. -/
def order_domain_values (cw : Crossword) (d : Domains) (_a : Assignment) (var : Nat) : List Word :=
  sortByCost (wordCost cw d var) (d var)

/-- First element minimizing `(d ·).length`, scanning left to right:
Python's `min(items, key=len)` keeps the current best unless a
strictly smaller one appears. -/
def minBySize (d : Domains) (b : Nat) : List Nat → Nat
  | [] => b
  | x :: xs => minBySize d (if (d x).length < (d b).length then x else b) xs

/-- First element maximizing the neighbor count, scanning left to
right: Python's `max(keys, key=degree)` replaces the current best only
on a strictly larger value. -/
def maxByDegree (cw : Crossword) (b : Nat) : List Nat → Nat
  | [] => b
  | x :: xs =>
    maxByDegree cw (if (cw.neighbors b).length < (cw.neighbors x).length then x else b) xs

/-- `select_unassigned_variable(assignment)` (lines 221-241): among the
unassigned slots (domain-store keys minus assignment keys, in store
order), find the first one of minimal domain size, discard the slots
of a different size, and return the first remaining slot of maximal
degree.  The Python raises on an empty unassigned set (`min(∅)`);
that situation is modelled as `none` and is unreachable from `solve`
because completeness is checked first. -/
def select_unassigned_variable (cw : Crossword) (d : Domains) (a : Assignment) : Option Nat :=
  match cw.vars.filter (fun v => !assignedB a v) with
  | [] => none
  | u0 :: us =>
    match (u0 :: us).filter (fun v => (d v).length == (d (minBySize d u0 us)).length) with
    | [] => none
    | p0 :: ps => some (maxByDegree cw p0 ps)

/-- `get_arcs(var, assignment)` (lines 270-276): a dict keyed by
`(neighbor, var)` for every unassigned neighbor; iterating it yields
those keys in neighbor order. -/
def get_arcs (cw : Crossword) (var : Nat) (a : Assignment) : List (Nat × Nat) :=
  ((cw.neighbors var).filter (fun nb => !assignedB a nb)).map (fun nb => (nb, var))

/-- The candidate loop of `backtrack` from its second iteration on
(lines 257-267).  After the first failed candidate the Python rebinds
`self.domains = copy_domains`, so from then on the loop body mutates
the snapshot object itself; `s` is that object's current state.  A
recursive call is handed the same object and mutates it (its own
first iteration writes to it before taking its own snapshot), so the
state threaded to the next iteration after a failed recursion is the
final state `sF` of the object as reported by the callee; the
restore `self.domains = copy_domains` that follows is a no-op
rebinding.  `assignment` is one shared dict throughout; its state is
threaded and returned.  `bt` is the recursive call at one level less
fuel. -/
def tryLoop (cw : Crossword)
    (bt : Domains → Assignment → Option Assignment × Domains × Assignment)
    (var : Nat) : Domains → Assignment → List Word → Option Assignment × Assignment
  | _, a, [] => (none, a)
  | s, a, w :: rest =>
    let a1 := insertA a var w
    let s1 := (ac3 cw (updateD s var [w]) (some (get_arcs cw var a1))).1
    if consistentB cw a1 then
      match bt s1 a1 with
      | (some r, _, aF) => (some r, aF)
      | (none, sF, aF) => tryLoop cw bt var sF (eraseA aF var) rest
    else tryLoop cw bt var s1 (eraseA a1 var) rest

/-- `backtrack(assignment)` (lines 243-268).  Arguments: the current
state `d0` of the domains object handed to the call, and the current
assignment.  Returns the search result, the final state of that same
domains object (only the first loop iteration and the recursive call
it makes write to it; from the second iteration on the loop writes to
the snapshot, see `tryLoop`), and the final state of the assignment
dict.  Note that the return value of the seeded `ac3` call on line
261 is ignored: descent is guarded solely by `consistent`.  Fuel
decreases at each recursion level; the wrapper `solve` supplies
`|variables| + 1`, which covers the maximal search depth. -/
def backtrack (cw : Crossword) : Nat → Domains → Assignment → Option Assignment × Domains × Assignment
  | 0, d, a => (none, d, a)
  | fuel + 1, d0, a0 =>
    if assignment_complete cw a0 then (some a0, d0, a0)
    else
      match select_unassigned_variable cw d0 a0 with
      | none => (none, d0, a0)
      | some var =>
        match order_domain_values cw d0 a0 var with
        | [] => (none, d0, a0)
        | w1 :: rest =>
          let a1 := insertA a0 var w1
          let l1 := (ac3 cw (updateD d0 var [w1]) (some (get_arcs cw var a1))).1
          if consistentB cw a1 then
            match backtrack cw fuel l1 a1 with
            | (some r, dF, aF) => (some r, dF, aF)
            | (none, dF, aF) =>
              let t := tryLoop cw (backtrack cw fuel) var d0 (eraseA aF var) rest
              (t.1, dF, t.2)
          else
            let t := tryLoop cw (backtrack cw fuel) var d0 (eraseA a1 var) rest
            (t.1, l1, t.2)

/-- `solve()` (lines 88-96): enforce node consistency, run full arc
consistency (report no solution if it fails), then search from the
empty assignment. -/
def solve (cw : Crossword) : Option Assignment :=
  let d1 := enforce_node_consistency cw (initDomains cw)
  let r := ac3 cw d1 none
  if r.2 then (backtrack cw (cw.vars.length + 1) r.1 []).1
  else none

/-! ### Concrete puzzles used by the witnesses and counterexamples -/

/-- Words of the example puzzles, written out as character lists. -/
def waa : Word := ['a', 'a']
def wbb : Word := ['b', 'b']
def wcd : Word := ['c', 'd']
def wapp : Word := ['a', 'p', 'p']
def wbus : Word := ['b', 'u', 's']
def wcat : Word := ['c', 'a', 't']
def wdog : Word := ['d', 'o', 'g']

/-- A three-slot puzzle: slot 0 (length 2) crosses slot 1 (length 3) at
`0[0] = 1[0]` and slot 2 (length 3) at `0[1] = 2[0]`.  Slots 1 and 2 do
not cross. -/
def exCw : Crossword where
  vars := [0, 1, 2]
  length := fun v => if v = 0 then 2 else 3
  words := [waa, wbb, wcd, wapp, wbus, wcat, wdog]
  overlapsT := [((0, 1), (0, 0)), ((1, 0), (0, 0)), ((0, 2), (1, 0)), ((2, 0), (0, 1))]

/-- The complete assignment `{0 ↦ "cd", 1 ↦ "cat", 2 ↦ "dog"}` of
`exCw`. -/
def exSol : Assignment := [(0, wcd), (1, wcat), (2, wdog)]

/-- A solvable two-slot puzzle: two length-2 slots crossing at
`0[0] = 1[0]`, vocabulary {"ab", "ac"}. -/
def exCw2 : Crossword where
  vars := [0, 1]
  length := fun _ => 2
  words := [['a', 'b'], ['a', 'c']]
  overlapsT := [((0, 1), (0, 0)), ((1, 0), (0, 0))]

/-- A puzzle with a single isolated slot of length 3 whose vocabulary
holds only a length-2 word: node consistency empties its domain. -/
def exCw1 : Crossword where
  vars := [0]
  length := fun _ => 3
  words := [['a', 'b']]
  overlapsT := []

/-! ### Basic lemmas: store updates, assignment dict operations -/

theorem updateD_self (d : Domains) (x : Nat) (ws : List Word) : updateD d x ws x = ws := by
  simp [updateD]

theorem updateD_other (d : Domains) {x z : Nat} (ws : List Word) (h : z ≠ x) :
    updateD d x ws z = d z := by
  simp [updateD, h]

theorem assignedB_false_iff (a : Assignment) (v : Nat) :
    assignedB a v = false ↔ ∀ p ∈ a, p.1 ≠ v := by
  simp [assignedB, List.any_eq_false]

theorem assignedB_true_iff (a : Assignment) (v : Nat) :
    assignedB a v = true ↔ ∃ p ∈ a, p.1 = v := by
  simp [assignedB, List.any_eq_true]

theorem eraseA_insertA {a : Assignment} {v : Nat} (w : Word)
    (h : assignedB a v = false) : eraseA (insertA a v w) v = a := by
  have h' := (assignedB_false_iff a v).1 h
  unfold eraseA insertA
  rw [List.filter_cons]
  simp only [bne_self_eq_false]
  exact List.filter_eq_self.mpr (fun p hp => by simpa using h' p hp)

theorem lookupA_mem {a : Assignment} {v : Nat} {w : Word}
    (h : lookupA a v = some w) : (v, w) ∈ a := by
  unfold lookupA at h
  cases hf : a.find? (fun p => p.1 == v) with
  | none => rw [hf] at h; simp at h
  | some p =>
    rw [hf] at h
    have hm := List.mem_of_find?_eq_some hf
    have hp : p.1 = v := by simpa using List.find?_some hf
    simp only [Option.map_some'] at h
    obtain rfl : p.2 = w := by simpa using h
    rw [← hp]; exact hm

theorem lookupA_isSome {a : Assignment} {v : Nat}
    (h : ∃ p ∈ a, p.1 = v) : ∃ w, lookupA a v = some w := by
  have : (a.find? (fun p => p.1 == v)).isSome := by
    rw [List.find?_isSome]
    obtain ⟨p, hp, he⟩ := h
    exact ⟨p, hp, by simpa using he⟩
  obtain ⟨p, hp⟩ := Option.isSome_iff_exists.mp this
  exact ⟨p.2, by simp [lookupA, hp]⟩

/-! ### Lemmas about `revise` -/

/-- Arc consistency of the directed pair `(x, y)` with overlap offsets
`ov` in the store `d`: every word of `domain(x)` has a compatible word
in `domain(y)`. -/
def arcCons (d : Domains) (x y : Nat) (ov : Nat × Nat) : Prop :=
  ∀ wx ∈ d x, ∃ wy ∈ d y, charAt wx ov.1 = charAt wy ov.2

theorem revise_of_none {cw : Crossword} {d : Domains} {x y : Nat}
    (h : cw.overlaps x y = none) : revise cw d x y = (d, false) := by
  simp [revise, h]

theorem revise_fst_other {cw : Crossword} (d : Domains) (x y : Nat) {z : Nat}
    (hz : z ≠ x) : (revise cw d x y).1 z = d z := by
  cases h : cw.overlaps x y with
  | none => simp [revise, h]
  | some ov => cases ov with
    | mk i j => simp [revise, h, updateD, hz]

theorem revise_mem {cw : Crossword} {d : Domains} {x y : Nat} {i j : Nat}
    (h : cw.overlaps x y = some (i, j)) (w : Word) :
    w ∈ (revise cw d x y).1 x ↔
      w ∈ d x ∧ ∃ wy ∈ d y, charAt w i = charAt wy j := by
  simp [revise, h, updateD, List.mem_filter, List.any_eq_true]

theorem revise_fst_subset {cw : Crossword} (d : Domains) (x y : Nat) (z : Nat)
    (w : Word) (hw : w ∈ (revise cw d x y).1 z) : w ∈ d z := by
  by_cases hz : z = x
  · rw [hz] at hw ⊢
    cases h : cw.overlaps x y with
    | none => rw [revise_of_none h] at hw; exact hw
    | some ov => cases ov with
      | mk i j => exact ((revise_mem h w).1 hw).1
  · rwa [revise_fst_other d x y hz] at hw

theorem revise_snd_iff {cw : Crossword} {d : Domains} {x y : Nat} {i j : Nat}
    (h : cw.overlaps x y = some (i, j)) :
    (revise cw d x y).2 = true ↔
      ∃ wx ∈ d x, ∀ wy ∈ d y, charAt wx i ≠ charAt wy j := by
  simp [revise, h, List.any_eq_true]

theorem revise_snd_false_fst {cw : Crossword} {d : Domains} {x y : Nat}
    (h : (revise cw d x y).2 = false) (z : Nat) : (revise cw d x y).1 z = d z := by
  by_cases hz : z = x
  · rw [hz]
    cases ho : cw.overlaps x y with
    | none => rw [revise_of_none ho]
    | some ov =>
      cases ov with
      | mk i j =>
        have hall : ∀ wx ∈ d x, ∃ wy ∈ d y, charAt wx i = charAt wy j := by
          intro wx hwx
          by_contra hc
          push_neg at hc
          exact absurd ((revise_snd_iff ho).2 ⟨wx, hwx, hc⟩)
            (by rw [h]; exact Bool.false_ne_true)
        simp only [revise, ho, updateD_self]
        exact List.filter_eq_self.mpr (fun w hw => by
          rw [List.any_eq_true]
          obtain ⟨wy, hwy, he⟩ := hall w hw
          exact ⟨wy, hwy, by simpa using he⟩)
  · exact revise_fst_other d x y hz

/-- After `revise(x, y)` with an overlap, the arc `(x, y)` is
consistent: every kept word has a compatible partner, and `domain(y)`
was not touched. -/
theorem revise_arcCons {cw : Crossword} {d : Domains} {x y : Nat} {i j : Nat}
    (h : cw.overlaps x y = some (i, j)) (hyx : y ≠ x) :
    arcCons (revise cw d x y).1 x y (i, j) := by
  intro wx hwx
  obtain ⟨-, wy, hwy, he⟩ := (revise_mem h wx).1 hwx
  exact ⟨wy, by rwa [revise_fst_other d x y hyx], he⟩

/-! ### Consequences of puzzle well-formedness -/

theorem CrosswordWF.overlaps_mem {cw : Crossword} (hwf : CrosswordWF cw)
    {x y : Nat} {ov : Nat × Nat} (h : cw.overlaps x y = some ov) :
    x ∈ cw.vars ∧ y ∈ cw.vars ∧ x ≠ y := by
  unfold Crossword.overlaps at h
  cases hf : cw.overlapsT.find? (fun e => e.1 == (x, y)) with
  | none => rw [hf] at h; simp at h
  | some e =>
    have hm := List.mem_of_find?_eq_some hf
    have hk : e.1 = (x, y) := by simpa using List.find?_some hf
    have := hwf.tableMem e hm
    rw [hk] at this
    exact this

theorem CrosswordWF.overlaps_symm {cw : Crossword} (hwf : CrosswordWF cw)
    {x y i j : Nat} (h : cw.overlaps x y = some (i, j)) :
    cw.overlaps y x = some (j, i) := by
  unfold Crossword.overlaps at h ⊢
  cases hf : cw.overlapsT.find? (fun e => e.1 == (x, y)) with
  | none => rw [hf] at h; simp at h
  | some e =>
    rw [hf] at h
    have hm := List.mem_of_find?_eq_some hf
    have hk : e.1 = (x, y) := by simpa using List.find?_some hf
    have hv : e.2 = (i, j) := by simpa using h
    have hsym : ((e.1.2, e.1.1), (e.2.2, e.2.1)) ∈ cw.overlapsT := hwf.tableSymm e hm
    rw [hk, hv] at hsym
    have hs : (cw.overlapsT.find? (fun e => e.1 == (y, x))).isSome := by
      rw [List.find?_isSome]
      exact ⟨((y, x), (j, i)), hsym, by simp⟩
    obtain ⟨e2, he2⟩ := Option.isSome_iff_exists.mp hs
    have hm2 := List.mem_of_find?_eq_some he2
    have hk2 : e2.1 = (y, x) := by simpa using List.find?_some he2
    have : e2.2 = (j, i) := by
      have := hwf.tableFun e2 hm2 ((y, x), (j, i)) hsym (by simpa using hk2)
      simpa using this
    rw [he2, Option.map_some', this]

theorem CrosswordWF.mem_neighbors {cw : Crossword} (hwf : CrosswordWF cw)
    {x y : Nat} {ov : Nat × Nat} (h : cw.overlaps x y = some ov) :
    y ∈ cw.neighbors x := by
  obtain ⟨-, hy, hne⟩ := hwf.overlaps_mem h
  unfold Crossword.neighbors
  rw [List.mem_filter]
  exact ⟨hy, by simp [Ne.symm hne, h]⟩

theorem neighbors_overlap {cw : Crossword} {x y : Nat}
    (h : y ∈ cw.neighbors x) : ∃ ov, cw.overlaps x y = some ov := by
  unfold Crossword.neighbors at h
  rw [List.mem_filter] at h
  have := h.2
  simp only [Bool.and_eq_true, bne_iff_ne, Option.isSome_iff_exists] at this
  exact this.2

/-! ### Lemmas about the `ac3` worklist loop -/

theorem ac3go_zero (cw : Crossword) (d : Domains) (q : List (Nat × Nat)) :
    ac3go cw 0 d q = (d, false) := rfl

theorem ac3go_nil (cw : Crossword) (fuel : Nat) (d : Domains) :
    ac3go cw (fuel + 1) d [] = (d, true) := rfl

theorem ac3go_cons (cw : Crossword) (fuel : Nat) (d : Domains) (x y : Nat)
    (rest : List (Nat × Nat)) :
    ac3go cw (fuel + 1) d ((x, y) :: rest) =
      if (revise cw d x y).2 then
        (if (revise cw d x y).1 x = [] then ((revise cw d x y).1, false)
         else ac3go cw fuel (revise cw d x y).1
           (rest ++ ((cw.neighbors x).filter (fun z => z != y)).map (fun z => (z, x))))
      else ac3go cw fuel d rest := rfl

theorem mem_allArcs {cw : Crossword} {x y : Nat} (hx : x ∈ cw.vars)
    (hy : y ∈ cw.vars) (hne : x ≠ y) : (x, y) ∈ allArcs cw := by
  unfold allArcs
  rw [List.mem_flatMap]
  refine ⟨x, hx, ?_⟩
  rw [List.mem_map]
  refine ⟨y, ?_, rfl⟩
  rw [List.mem_filter]
  exact ⟨hy, by simp [Ne.symm hne]⟩

/-- If the worklist loop reports success, every domain that was
non-empty when it started is still non-empty: the only emptying step
is a revision, and an emptying revision aborts the loop with failure
at once. -/
theorem ac3go_true_nonempty {cw : Crossword} :
    ∀ (fuel : Nat) (d : Domains) (q : List (Nat × Nat)) (d' : Domains),
      ac3go cw fuel d q = (d', true) → ∀ v, d v ≠ [] → d' v ≠ [] := by
  intro fuel
  induction fuel with
  | zero =>
    intro d q d' h
    simp [ac3go] at h
  | succ n ih =>
    intro d q d' h v hv
    rcases q with _ | ⟨⟨x, y⟩, rest⟩
    · rw [ac3go_nil] at h
      obtain ⟨rfl, -⟩ : d = d' ∧ True := by simpa using h
      exact hv
    · rw [ac3go_cons] at h
      by_cases hr : (revise cw d x y).2 = true
      · rw [if_pos hr] at h
        by_cases he : (revise cw d x y).1 x = []
        · rw [if_pos he] at h
          simp at h
        · rw [if_neg he] at h
          refine ih (revise cw d x y).1 _ d' h v ?_
          by_cases hvx : v = x
          · rw [hvx]; exact he
          · rw [revise_fst_other d x y hvx]; exact hv
      · rw [if_neg hr] at h
        exact ih d rest d' h v hv

/-- The worklist invariant of `ac3`: every constrained ordered pair is
either still enqueued or already arc consistent. -/
def arcInv (cw : Crossword) (d : Domains) (q : List (Nat × Nat)) : Prop :=
  ∀ x y i j, cw.overlaps x y = some (i, j) → (x, y) ∈ q ∨ arcCons d x y (i, j)

/-- Soundness of the worklist loop: if it starts with the invariant
and reports success, every constrained pair is arc consistent in the
final store. -/
theorem ac3go_sound {cw : Crossword} (hwf : CrosswordWF cw) :
    ∀ (fuel : Nat) (d : Domains) (q : List (Nat × Nat)) (d' : Domains),
      arcInv cw d q → ac3go cw fuel d q = (d', true) →
      ∀ x y i j, cw.overlaps x y = some (i, j) → arcCons d' x y (i, j) := by
  intro fuel
  induction fuel with
  | zero =>
    intro d q d' _ h
    simp [ac3go] at h
  | succ n ih =>
    intro d q d' hinv h
    rcases q with _ | ⟨⟨x, y⟩, rest⟩
    · rw [ac3go_nil] at h
      obtain ⟨rfl, -⟩ : d = d' ∧ True := by simpa using h
      intro u v i j ho
      rcases hinv u v i j ho with hq | hc
      · exact absurd hq (List.not_mem_nil _)
      · exact hc
    · rw [ac3go_cons] at h
      by_cases hr : (revise cw d x y).2 = true
      · rcases hoo : cw.overlaps x y with - | ⟨ix, jy⟩
        · rw [revise_of_none hoo] at hr
          simp at hr
        · rw [if_pos hr] at h
          by_cases he : (revise cw d x y).1 x = []
          · rw [if_pos he] at h
            simp at h
          · rw [if_neg he] at h
            refine ih (revise cw d x y).1 _ d' ?_ h
            intro u v i j ho
            have hxy := hwf.overlaps_mem hoo
            rcases hinv u v i j ho with hq | hc
            · rcases List.mem_cons.mp hq with heq | hrest
              · rw [Prod.mk.injEq] at heq
                obtain ⟨rfl, rfl⟩ := heq
                obtain ⟨rfl, rfl⟩ : i = ix ∧ j = jy := by
                  have h2 := ho.symm.trans hoo
                  simp at h2
                  exact ⟨h2.1, h2.2⟩
                exact Or.inr (revise_arcCons hoo (Ne.symm hxy.2.2))
              · exact Or.inl (List.mem_append_left _ hrest)
            · by_cases hvx : v = x
              · by_cases huy : u = y
                · -- revising (x, y) never breaks the reverse arc (y, x)
                  right
                  rw [hvx, huy] at ho hc ⊢
                  obtain ⟨rfl, rfl⟩ : i = jy ∧ j = ix := by
                    have h2 := ho.symm.trans (hwf.overlaps_symm hoo)
                    simp at h2
                    exact ⟨h2.1, h2.2⟩
                  intro wy hwy
                  rw [revise_fst_other d x y (Ne.symm hxy.2.2)] at hwy
                  obtain ⟨wx, hwx, hme⟩ := hc wy hwy
                  refine ⟨wx, ?_, hme⟩
                  rw [revise_mem hoo]
                  exact ⟨hwx, wy, hwy, hme.symm⟩
                · -- the possibly broken arc (u, x) is re-enqueued
                  left
                  rw [hvx]
                  refine List.mem_append_right _ ?_
                  rw [List.mem_map]
                  refine ⟨u, ?_, rfl⟩
                  rw [List.mem_filter]
                  rw [hvx] at ho
                  have hvu : cw.overlaps x u = some (j, i) := hwf.overlaps_symm ho
                  exact ⟨(hwf.mem_neighbors hvu : u ∈ cw.neighbors x), by simp [huy]⟩
              · -- the revised slot is not the target: consistency survives
                right
                intro wu hwu
                have hwu' : wu ∈ d u := revise_fst_subset d x y u wu hwu
                obtain ⟨wv, hwv, hme⟩ := hc wu hwu'
                exact ⟨wv, by rwa [revise_fst_other d x y hvx], hme⟩
      · rw [if_neg hr] at h
        refine ih d rest d' ?_ h
        intro u v i j ho
        rcases hinv u v i j ho with hq | hc
        · rcases List.mem_cons.mp hq with heq | hrest
          · rw [Prod.mk.injEq] at heq
            obtain ⟨rfl, rfl⟩ := heq
            right
            rw [Bool.not_eq_true] at hr
            have hiff := @revise_snd_iff cw d u v i j ho
            rw [hr] at hiff
            intro wx hwx
            by_contra hc2
            push_neg at hc2
            exact absurd (hiff.2 ⟨wx, hwx, hc2⟩) Bool.false_ne_true
          · exact Or.inl hrest
        · exact Or.inr hc

/-- `ac3` lifts `ac3go_true_nonempty` to the wrapper. -/
theorem ac3_true_nonempty {cw : Crossword} {d d' : Domains}
    {arcs : Option (List (Nat × Nat))} (h : ac3 cw d arcs = (d', true)) :
    ∀ v, d v ≠ [] → d' v ≠ [] := by
  unfold ac3 at h
  exact ac3go_true_nonempty _ _ _ _ h

/-- Soundness of the full `ac3()` run of `solve`: on success every
constrained pair of slots is arc consistent. -/
theorem ac3_none_sound {cw : Crossword} (hwf : CrosswordWF cw) {d d' : Domains}
    (h : ac3 cw d none = (d', true)) :
    ∀ x y i j, cw.overlaps x y = some (i, j) → arcCons d' x y (i, j) := by
  unfold ac3 at h
  refine ac3go_sound hwf _ _ _ _ ?_ h
  intro x y i j ho
  obtain ⟨hx, hy, hne⟩ := hwf.overlaps_mem ho
  exact Or.inl (mem_allArcs hx hy hne)

/-! ### Lemmas about variable selection -/

theorem minBySize_mem (d : Domains) :
    ∀ (l : List Nat) (b : Nat), minBySize d b l ∈ b :: l := by
  intro l
  induction l with
  | nil => intro b; rw [minBySize]; exact List.mem_singleton.mpr rfl
  | cons x xs ih =>
    intro b
    rw [minBySize]
    by_cases hc : (d x).length < (d b).length
    · rw [if_pos hc]
      rcases List.mem_cons.mp (ih x) with h | h
      · rw [h]
        exact List.mem_cons_of_mem _ (List.mem_cons_self _ _)
      · exact List.mem_cons_of_mem _ (List.mem_cons_of_mem _ h)
    · rw [if_neg hc]
      rcases List.mem_cons.mp (ih b) with h | h
      · rw [h]
        exact List.mem_cons_self _ _
      · exact List.mem_cons_of_mem _ (List.mem_cons_of_mem _ h)

theorem minBySize_le (d : Domains) :
    ∀ (l : List Nat) (b u : Nat), u ∈ b :: l →
      (d (minBySize d b l)).length ≤ (d u).length := by
  intro l
  induction l with
  | nil =>
    intro b u hu
    rcases List.mem_cons.mp hu with rfl | h
    · rw [minBySize]
    · cases h
  | cons x xs ih =>
    intro b u hu
    rw [minBySize]
    have hle_b : (d (if (d x).length < (d b).length then x else b)).length ≤ (d b).length := by
      split
      · omega
      · exact Nat.le_refl _
    have hle_x : (d (if (d x).length < (d b).length then x else b)).length ≤ (d x).length := by
      split
      · exact Nat.le_refl _
      · omega
    have hbase := ih (if (d x).length < (d b).length then x else b)
    rcases List.mem_cons.mp hu with rfl | hu'
    · exact le_trans (hbase _ (List.mem_cons_self _ _)) hle_b
    · rcases List.mem_cons.mp hu' with rfl | hu''
      · exact le_trans (hbase _ (List.mem_cons_self _ _)) hle_x
      · exact hbase u (List.mem_cons_of_mem _ hu'')

theorem maxByDegree_mem (cw : Crossword) :
    ∀ (l : List Nat) (b : Nat), maxByDegree cw b l ∈ b :: l := by
  intro l
  induction l with
  | nil => intro b; rw [maxByDegree]; exact List.mem_singleton.mpr rfl
  | cons x xs ih =>
    intro b
    rw [maxByDegree]
    by_cases hc : (cw.neighbors b).length < (cw.neighbors x).length
    · rw [if_pos hc]
      rcases List.mem_cons.mp (ih x) with h | h
      · rw [h]
        exact List.mem_cons_of_mem _ (List.mem_cons_self _ _)
      · exact List.mem_cons_of_mem _ (List.mem_cons_of_mem _ h)
    · rw [if_neg hc]
      rcases List.mem_cons.mp (ih b) with h | h
      · rw [h]
        exact List.mem_cons_self _ _
      · exact List.mem_cons_of_mem _ (List.mem_cons_of_mem _ h)

theorem maxByDegree_ge (cw : Crossword) :
    ∀ (l : List Nat) (b u : Nat), u ∈ b :: l →
      (cw.neighbors u).length ≤ (cw.neighbors (maxByDegree cw b l)).length := by
  intro l
  induction l with
  | nil =>
    intro b u hu
    rcases List.mem_cons.mp hu with rfl | h
    · rw [maxByDegree]
    · cases h
  | cons x xs ih =>
    intro b u hu
    rw [maxByDegree]
    have hge_b : (cw.neighbors b).length ≤
        (cw.neighbors (if (cw.neighbors b).length < (cw.neighbors x).length then x else b)).length := by
      split
      · omega
      · exact Nat.le_refl _
    have hge_x : (cw.neighbors x).length ≤
        (cw.neighbors (if (cw.neighbors b).length < (cw.neighbors x).length then x else b)).length := by
      split
      · exact Nat.le_refl _
      · omega
    have hbase := ih (if (cw.neighbors b).length < (cw.neighbors x).length then x else b)
    rcases List.mem_cons.mp hu with rfl | hu'
    · exact le_trans hge_b (hbase _ (List.mem_cons_self _ _))
    · rcases List.mem_cons.mp hu' with rfl | hu''
      · exact le_trans hge_x (hbase _ (List.mem_cons_self _ _))
      · exact hbase u (List.mem_cons_of_mem _ hu'')

/-- The slot returned by `select_unassigned_variable` is an unassigned
slot of the puzzle with minimal domain size among the unassigned
slots, and of maximal degree among the unassigned slots of that size. -/
theorem select_spec {cw : Crossword} {d : Domains} {a : Assignment} {r : Nat}
    (h : select_unassigned_variable cw d a = some r) :
    r ∈ cw.vars ∧ assignedB a r = false ∧
      (∀ u ∈ cw.vars, assignedB a u = false → (d r).length ≤ (d u).length) ∧
      (∀ u ∈ cw.vars, assignedB a u = false → (d u).length = (d r).length →
        (cw.neighbors u).length ≤ (cw.neighbors r).length) := by
  unfold select_unassigned_variable at h
  split at h
  · simp at h
  · rename_i u0 us hun
    split at h
    · simp at h
    · rename_i p0 ps hpr
      obtain rfl : maxByDegree cw p0 ps = r := by simpa using h
      have hrp : maxByDegree cw p0 ps ∈ p0 :: ps := maxByDegree_mem cw ps p0
      rw [← hpr] at hrp
      rw [List.mem_filter] at hrp
      obtain ⟨hrun, hrsz⟩ := hrp
      have hrsz' : (d (maxByDegree cw p0 ps)).length = (d (minBySize d u0 us)).length := by
        simpa using hrsz
      have hrun' : maxByDegree cw p0 ps ∈ cw.vars.filter (fun v => !assignedB a v) := by
        rw [hun]; exact hrun
      rw [List.mem_filter] at hrun'
      refine ⟨hrun'.1, by simpa using hrun'.2, ?_, ?_⟩
      · intro u hu hua
        have humem : u ∈ cw.vars.filter (fun v => !assignedB a v) :=
          List.mem_filter.mpr ⟨hu, by simp [hua]⟩
        rw [hun] at humem
        calc (d (maxByDegree cw p0 ps)).length
            = (d (minBySize d u0 us)).length := hrsz'
          _ ≤ (d u).length := minBySize_le d us u0 u humem
      · intro u hu hua husz
        have humem : u ∈ cw.vars.filter (fun v => !assignedB a v) :=
          List.mem_filter.mpr ⟨hu, by simp [hua]⟩
        rw [hun] at humem
        have hupr : u ∈ (u0 :: us).filter
            (fun v => (d v).length == (d (minBySize d u0 us)).length) := by
          rw [List.mem_filter]
          exact ⟨humem, by rw [Nat.beq_eq_true_eq]; rw [husz]; exact hrsz'⟩
        rw [hpr] at hupr
        exact maxByDegree_ge cw ps p0 u hupr

/-- `select_unassigned_variable` succeeds whenever some slot is still
unassigned. -/
theorem select_isSome {cw : Crossword} {d : Domains} {a : Assignment} {v : Nat}
    (hv : v ∈ cw.vars) (hva : assignedB a v = false) :
    ∃ r, select_unassigned_variable cw d a = some r := by
  have hvm : v ∈ cw.vars.filter (fun u => !assignedB a u) :=
    List.mem_filter.mpr ⟨hv, by simp [hva]⟩
  rcases hs : select_unassigned_variable cw d a with - | r
  · exfalso
    unfold select_unassigned_variable at hs
    split at hs
    · rename_i hun
      rw [hun] at hvm
      cases hvm
    · rename_i u0 us hun
      split at hs
      · rename_i hpr
        have hlm : minBySize d u0 us ∈ (u0 :: us).filter
            (fun w => (d w).length == (d (minBySize d u0 us)).length) :=
          List.mem_filter.mpr ⟨minBySize_mem d us u0, by simp⟩
        rw [hpr] at hlm
        cases hlm
      · simp at hs
  · exact ⟨r, rfl⟩

/-! ### Lemmas about `backtrack` and its candidate loop -/

theorem tryLoop_nil (cw : Crossword)
    (bt : Domains → Assignment → Option Assignment × Domains × Assignment)
    (var : Nat) (s : Domains) (a : Assignment) :
    tryLoop cw bt var s a [] = (none, a) := rfl

theorem tryLoop_cons (cw : Crossword)
    (bt : Domains → Assignment → Option Assignment × Domains × Assignment)
    (var : Nat) (s : Domains) (a : Assignment) (w : Word) (rest : List Word) :
    tryLoop cw bt var s a (w :: rest) =
      if consistentB cw (insertA a var w) then
        match bt (ac3 cw (updateD s var [w])
            (some (get_arcs cw var (insertA a var w)))).1 (insertA a var w) with
        | (some r, _, aF) => (some r, aF)
        | (none, sF, aF) => tryLoop cw bt var sF (eraseA aF var) rest
      else
        tryLoop cw bt var
          (ac3 cw (updateD s var [w]) (some (get_arcs cw var (insertA a var w)))).1
          (eraseA (insertA a var w) var) rest := rfl

theorem backtrack_zero (cw : Crossword) (d : Domains) (a : Assignment) :
    backtrack cw 0 d a = (none, d, a) := rfl

theorem backtrack_succ (cw : Crossword) (fuel : Nat) (d0 : Domains) (a0 : Assignment) :
    backtrack cw (fuel + 1) d0 a0 =
      if assignment_complete cw a0 then (some a0, d0, a0)
      else
        match select_unassigned_variable cw d0 a0 with
        | none => (none, d0, a0)
        | some var =>
          match order_domain_values cw d0 a0 var with
          | [] => (none, d0, a0)
          | w1 :: rest =>
            if consistentB cw (insertA a0 var w1) then
              match backtrack cw fuel
                  (ac3 cw (updateD d0 var [w1])
                    (some (get_arcs cw var (insertA a0 var w1)))).1
                  (insertA a0 var w1) with
              | (some r, dF, aF) => (some r, dF, aF)
              | (none, dF, aF) =>
                ((tryLoop cw (backtrack cw fuel) var d0 (eraseA aF var) rest).1, dF,
                 (tryLoop cw (backtrack cw fuel) var d0 (eraseA aF var) rest).2)
            else
              ((tryLoop cw (backtrack cw fuel) var d0
                  (eraseA (insertA a0 var w1) var) rest).1,
               (ac3 cw (updateD d0 var [w1])
                  (some (get_arcs cw var (insertA a0 var w1)))).1,
               (tryLoop cw (backtrack cw fuel) var d0
                  (eraseA (insertA a0 var w1) var) rest).2) := rfl

/-- The candidate loop restores the assignment dict: if it fails, the
assignment it leaves behind is the one it was entered with (each
iteration pops the tentative binding it pushed). -/
theorem tryLoop_restore {cw : Crossword}
    {bt : Domains → Assignment → Option Assignment × Domains × Assignment}
    (hbt : ∀ d a, (bt d a).1 = none → (bt d a).2.2 = a)
    {var : Nat} {a : Assignment} (hva : assignedB a var = false) :
    ∀ (ws : List Word) (s : Domains),
      (tryLoop cw bt var s a ws).1 = none → (tryLoop cw bt var s a ws).2 = a := by
  intro ws
  induction ws with
  | nil => intro s _; rfl
  | cons w rest ih =>
    intro s h
    rw [tryLoop_cons] at h ⊢
    by_cases hcon : consistentB cw (insertA a var w) = true
    · rw [if_pos hcon] at h ⊢
      split at h
      · rename_i r sF aF hbt2
        simp at h
      · rename_i sF aF hbt2
        have haF : aF = insertA a var w := by
          have h2 := hbt (ac3 cw (updateD s var [w])
              (some (get_arcs cw var (insertA a var w)))).1 (insertA a var w)
          rw [hbt2] at h2
          exact h2 rfl
        rw [haF, eraseA_insertA w hva] at h ⊢
        exact ih _ h
    · rw [if_neg hcon] at h ⊢
      rw [eraseA_insertA w hva] at h ⊢
      exact ih _ h

/-- `backtrack` restores the assignment dict on failure: when it
returns `None`, the assignment holds exactly the entries it held on
entry. -/
theorem backtrack_restore {cw : Crossword} :
    ∀ (fuel : Nat) (d : Domains) (a : Assignment),
      (backtrack cw fuel d a).1 = none → (backtrack cw fuel d a).2.2 = a := by
  intro fuel
  induction fuel with
  | zero => intro d a _; rfl
  | succ n ih =>
    intro d a h
    rw [backtrack_succ] at h ⊢
    by_cases hcom : assignment_complete cw a = true
    · rw [if_pos hcom] at h
      simp at h
    · rw [if_neg hcom] at h ⊢
      split at h
      · rfl
      · rename_i var hsel
        have hva : assignedB a var = false := (select_spec hsel).2.1
        split at h
        · rfl
        · rename_i w1 rest hord
          by_cases hcon : consistentB cw (insertA a var w1) = true
          · rw [if_pos hcon] at h ⊢
            split at h
            · rename_i r dF aF hbt2
              simp at h
            · rename_i dF aF hbt2
              have haF : aF = insertA a var w1 := by
                have h2 := ih (ac3 cw (updateD d var [w1])
                    (some (get_arcs cw var (insertA a var w1)))).1 (insertA a var w1)
                rw [hbt2] at h2
                exact h2 rfl
              rw [haF, eraseA_insertA w1 hva] at h ⊢
              exact tryLoop_restore ih hva rest d h
          · rw [if_neg hcon] at h ⊢
            rw [eraseA_insertA w1 hva] at h ⊢
            exact tryLoop_restore ih hva rest d h

/-- Invariant of the assignment dict along the search: keys are
distinct and are slots of the puzzle. -/
def AOK (cw : Crossword) (a : Assignment) : Prop :=
  (a.map (·.1)).Nodup ∧ ∀ p ∈ a, p.1 ∈ cw.vars

theorem AOK_nil (cw : Crossword) : AOK cw [] :=
  ⟨List.nodup_nil, by intro p hp; cases hp⟩

theorem AOK_insert {cw : Crossword} {a : Assignment} {var : Nat} (w : Word)
    (hvv : var ∈ cw.vars) (hva : assignedB a var = false) (h : AOK cw a) :
    AOK cw (insertA a var w) := by
  obtain ⟨hnd, hmem⟩ := h
  constructor
  · rw [insertA, List.map_cons, List.nodup_cons]
    refine ⟨?_, hnd⟩
    rw [List.mem_map]
    rintro ⟨p, hp, hp1⟩
    exact ((assignedB_false_iff a var).1 hva) p hp hp1
  · intro p hp
    rcases List.mem_cons.mp hp with rfl | hp'
    · exact hvv
    · exact hmem p hp'

/-- Soundness of the candidate loop: a returned assignment is a
well-keyed, consistent, complete assignment (relying on the recursive
call having the same property, and on the recursive call restoring the
shared assignment on failure). -/
theorem tryLoop_sound {cw : Crossword}
    {bt : Domains → Assignment → Option Assignment × Domains × Assignment}
    (hbt : ∀ d a r, consistentB cw a = true → AOK cw a → (bt d a).1 = some r →
      AOK cw r ∧ consistentB cw r = true ∧ assignment_complete cw r = true)
    (hbtr : ∀ d a, (bt d a).1 = none → (bt d a).2.2 = a)
    {var : Nat} {a : Assignment} (hvv : var ∈ cw.vars)
    (hva : assignedB a var = false) (haok : AOK cw a) :
    ∀ (ws : List Word) (s : Domains) (res : Assignment),
      (tryLoop cw bt var s a ws).1 = some res →
      AOK cw res ∧ consistentB cw res = true ∧ assignment_complete cw res = true := by
  intro ws
  induction ws with
  | nil =>
    intro s res h
    simp [tryLoop_nil] at h
  | cons w rest ih =>
    intro s res h
    rw [tryLoop_cons] at h
    by_cases hcon : consistentB cw (insertA a var w) = true
    · rw [if_pos hcon] at h
      split at h
      · rename_i r2 sF aF hbt2
        obtain rfl : r2 = res := by simpa using h
        exact hbt _ _ _ hcon (AOK_insert w hvv hva haok) (by rw [hbt2])
      · rename_i sF aF hbt2
        have haF : aF = insertA a var w := by
          have h2 := hbtr (ac3 cw (updateD s var [w])
              (some (get_arcs cw var (insertA a var w)))).1 (insertA a var w)
          rw [hbt2] at h2
          exact h2 rfl
        rw [haF, eraseA_insertA w hva] at h
        exact ih _ res h
    · rw [if_neg hcon] at h
      rw [eraseA_insertA w hva] at h
      exact ih _ res h

/-- Soundness of `backtrack`: entered with a well-keyed consistent
assignment, any assignment it returns is well-keyed, passes
`consistent`, and passes `assignment_complete`. -/
theorem backtrack_sound {cw : Crossword} :
    ∀ (fuel : Nat) (d : Domains) (a res : Assignment),
      consistentB cw a = true → AOK cw a → (backtrack cw fuel d a).1 = some res →
      AOK cw res ∧ consistentB cw res = true ∧ assignment_complete cw res = true := by
  intro fuel
  induction fuel with
  | zero =>
    intro d a res _ _ h
    simp [backtrack_zero] at h
  | succ n ih =>
    intro d a res hcona haok h
    rw [backtrack_succ] at h
    by_cases hcom : assignment_complete cw a = true
    · rw [if_pos hcom] at h
      obtain rfl : a = res := by simpa using h
      exact ⟨haok, hcona, hcom⟩
    · rw [if_neg hcom] at h
      split at h
      · simp at h
      · rename_i var hsel
        obtain ⟨hvv, hva, -, -⟩ := select_spec hsel
        split at h
        · simp at h
        · rename_i w1 rest hord
          by_cases hcon : consistentB cw (insertA a var w1) = true
          · rw [if_pos hcon] at h
            split at h
            · rename_i r2 dF aF hbt2
              obtain rfl : r2 = res := by simpa using h
              exact ih _ _ _ hcon (AOK_insert w1 hvv hva haok) (by rw [hbt2])
            · rename_i dF aF hbt2
              have haF : aF = insertA a var w1 := by
                have h2 := @backtrack_restore cw n (ac3 cw (updateD d var [w1])
                    (some (get_arcs cw var (insertA a var w1)))).1 (insertA a var w1)
                rw [hbt2] at h2
                exact h2 rfl
              rw [haF, eraseA_insertA w1 hva] at h
              exact tryLoop_sound ih (@backtrack_restore cw n) hvv hva haok rest d res h
          · rw [if_neg hcon] at h
            rw [eraseA_insertA w1 hva] at h
            exact tryLoop_sound ih (@backtrack_restore cw n) hvv hva haok rest d res h

/-- A well-keyed assignment missing at least one slot has strictly
fewer entries than there are slots. -/
theorem length_lt_of_unassigned {cw : Crossword} {a : Assignment} {v : Nat}
    (hwf : CrosswordWF cw) (haok : AOK cw a) (hv : v ∈ cw.vars)
    (hva : assignedB a v = false) : a.length < cw.vars.length := by
  obtain ⟨hnd, hmem⟩ := haok
  have h1 : (a.map (·.1)).toFinset ⊆ cw.vars.toFinset := by
    intro k hk
    rw [List.mem_toFinset] at hk ⊢
    obtain ⟨p, hp, rfl⟩ := List.mem_map.mp hk
    exact hmem p hp
  have h3 : v ∉ (a.map (·.1)).toFinset := by
    rw [List.mem_toFinset, List.mem_map]
    rintro ⟨p, hp, hp1⟩
    exact ((assignedB_false_iff a v).1 hva) p hp hp1
  have hss : (a.map (·.1)).toFinset ⊂ cw.vars.toFinset :=
    ⟨h1, fun hsub => h3 (hsub (List.mem_toFinset.mpr hv))⟩
  have hcard := Finset.card_lt_card hss
  rwa [List.toFinset_card_of_nodup hnd, List.toFinset_card_of_nodup hwf.nodupVars,
    List.length_map] at hcard

/-- When some unassigned slot has an empty domain, `backtrack` fails
immediately: the selected slot (minimal domain size) then has an empty
domain, so the candidate list is empty and the node returns `None`
without recursing and without changing domains or assignment. -/
theorem backtrack_empty_unassigned {cw : Crossword} {d : Domains} {a : Assignment}
    {v : Nat} (hwf : CrosswordWF cw) (haok : AOK cw a) (hv : v ∈ cw.vars)
    (hva : assignedB a v = false) (hdv : d v = []) :
    ∀ fuel, backtrack cw fuel d a = (none, d, a) := by
  intro fuel
  cases fuel with
  | zero => rfl
  | succ n =>
    rw [backtrack_succ]
    have hlt := length_lt_of_unassigned hwf haok hv hva
    have hcomf : ¬assignment_complete cw a = true := by
      unfold assignment_complete
      simp only [beq_iff_eq]
      omega
    rw [if_neg hcomf]
    split
    · rfl
    · rename_i var hsel
      have hsize := (select_spec hsel).2.2.1 v hv hva
      rw [hdv] at hsize
      have hdvar : d var = [] := by
        rw [← List.length_eq_zero]
        simpa using hsize
      have hord : order_domain_values cw d a var = [] := by
        unfold order_domain_values
        rw [hdvar]
        rfl
      rw [hord]

/-! ### From the boolean checkers to semantic statements -/

theorem consistentB_nodup {cw : Crossword} {a : Assignment}
    (h : consistentB cw a = true) : (a.map (·.2)).Nodup := by
  unfold consistentB at h
  rw [Bool.and_eq_true] at h
  exact of_decide_eq_true h.1

theorem consistentB_nil (cw : Crossword) : consistentB cw [] = true := by
  unfold consistentB
  simp

/-- No two distinct assigned slots of a `consistent` assignment hold
the same word. -/
theorem consistentB_distinct {cw : Crossword} {a : Assignment}
    (h : consistentB cw a = true) {v1 v2 : Nat} {w1 w2 : Word}
    (h1 : lookupA a v1 = some w1) (h2 : lookupA a v2 = some w2)
    (hne : v1 ≠ v2) : w1 ≠ w2 := by
  intro heq
  have hp1 := lookupA_mem h1
  have hp2 := lookupA_mem h2
  have hnd := consistentB_nodup h
  have hp := List.inj_on_of_nodup_map hnd hp1 hp2 (by rw [heq])
  exact hne (congrArg Prod.fst hp)

/-- Every assigned crossing pair of a `consistent` assignment agrees
at the overlap offsets. -/
theorem consistentB_overlap {cw : Crossword} (hwf : CrosswordWF cw) {a : Assignment}
    (h : consistentB cw a = true) {v1 v2 i j : Nat} {w1 w2 : Word}
    (ho : cw.overlaps v1 v2 = some (i, j))
    (h1 : lookupA a v1 = some w1) (h2 : lookupA a v2 = some w2) :
    charAt w1 i = charAt w2 j := by
  simp only [consistentB, Bool.and_eq_true, List.all_eq_true] at h
  have hp1 : (v1, w1) ∈ a := lookupA_mem h1
  have hnb : v2 ∈ cw.neighbors v1 := hwf.mem_neighbors ho
  have h3 := h.2 (v1, w1) hp1 v2 hnb
  simp only [h2, ho] at h3
  simpa using h3

/-- A complete well-keyed assignment covers every slot. -/
theorem complete_covers {cw : Crossword} (hwf : CrosswordWF cw) {a : Assignment}
    (haok : AOK cw a) (hc : assignment_complete cw a = true) :
    ∀ v ∈ cw.vars, ∃ w, lookupA a v = some w := by
  intro v hv
  obtain ⟨hnd, hmem⟩ := haok
  have hlen : a.length = cw.vars.length := by
    unfold assignment_complete at hc
    simpa using hc
  have hsub : (a.map (·.1)).toFinset ⊆ cw.vars.toFinset := by
    intro k hk
    rw [List.mem_toFinset] at hk ⊢
    obtain ⟨p, hp, rfl⟩ := List.mem_map.mp hk
    exact hmem p hp
  have hcards : cw.vars.toFinset.card ≤ (a.map (·.1)).toFinset.card := by
    rw [List.toFinset_card_of_nodup hnd, List.toFinset_card_of_nodup hwf.nodupVars,
      List.length_map, hlen]
  have heqf := Finset.eq_of_subset_of_card_le hsub hcards
  have hvk : v ∈ (a.map (·.1)).toFinset := by
    rw [heqf]
    exact List.mem_toFinset.mpr hv
  rw [List.mem_toFinset, List.mem_map] at hvk
  obtain ⟨p, hp, hp1⟩ := hvk
  exact lookupA_isSome ⟨p, hp, hp1⟩

/-- Soundness of `solve`: a returned assignment is well-keyed,
`consistent` and `assignment_complete`. -/
theorem solve_sound {cw : Crossword} {r : Assignment} (h : solve cw = some r) :
    AOK cw r ∧ consistentB cw r = true ∧ assignment_complete cw r = true := by
  unfold solve at h
  by_cases hac : (ac3 cw (enforce_node_consistency cw (initDomains cw)) none).2 = true
  · rw [if_pos hac] at h
    exact backtrack_sound (cw.vars.length + 1) _ [] r (consistentB_nil cw) (AOK_nil cw) h
  · rw [if_neg hac] at h
    simp at h

/-! ### Claims -/

/-- C1: any non-None assignment returned by `solve()` is complete
(every slot of the puzzle is assigned a word), globally unique (no two
distinct slots hold the identical word) and overlap-consistent (every
assigned crossing pair agrees at its overlap offsets); `solve()` never
returns a partial assignment. -/
theorem claim_C1 {cw : Crossword} {r : Assignment} (hwf : CrosswordWF cw)
    (h : solve cw = some r) :
    (∀ v ∈ cw.vars, ∃ w, lookupA r v = some w) ∧
    (∀ v1 v2 w1 w2, lookupA r v1 = some w1 → lookupA r v2 = some w2 →
      v1 ≠ v2 → w1 ≠ w2) ∧
    (∀ v1 v2 i j w1 w2, cw.overlaps v1 v2 = some (i, j) →
      lookupA r v1 = some w1 → lookupA r v2 = some w2 →
      charAt w1 i = charAt w2 j) := by
  obtain ⟨haok, hcons, hcom⟩ := solve_sound h
  refine ⟨complete_covers hwf haok hcom, ?_, ?_⟩
  · intro v1 v2 w1 w2 h1 h2 hne
    exact consistentB_distinct hcons h1 h2 hne
  · intro v1 v2 i j w1 w2 ho h1 h2
    exact consistentB_overlap hwf hcons ho h1 h2

/-- Witness for C1: on the two-slot puzzle `exCw2`, `solve` returns
the assignment `{1 ↦ "ac", 0 ↦ "ab"}`, which is complete, globally
unique and overlap-consistent. -/
theorem claim_C1_witness :
    (∀ v ∈ exCw2.vars, ∃ w, lookupA [(1, ['a', 'c']), (0, ['a', 'b'])] v = some w) ∧
    (∀ v1 v2 w1 w2, lookupA [(1, ['a', 'c']), (0, ['a', 'b'])] v1 = some w1 →
      lookupA [(1, ['a', 'c']), (0, ['a', 'b'])] v2 = some w2 → v1 ≠ v2 → w1 ≠ w2) ∧
    (∀ v1 v2 i j w1 w2, exCw2.overlaps v1 v2 = some (i, j) →
      lookupA [(1, ['a', 'c']), (0, ['a', 'b'])] v1 = some w1 →
      lookupA [(1, ['a', 'c']), (0, ['a', 'b'])] v2 = some w2 →
      charAt w1 i = charAt w2 j) :=
  claim_C1 ⟨by decide, by decide, by decide, by decide⟩ rfl

/-- C2 (code bug witness): on the three-slot puzzle `exCw`, `solve()`
returns no solution although the complete assignment `exSol`
(`{0 ↦ "cd", 1 ↦ "cat", 2 ↦ "dog"}`) satisfies the solver's own
completeness and consistency checks.  The cause: in `backtrack`
(lines 254, 266), the snapshot `copy_domains` is taken once, and
`self.domains = copy_domains` rebinds the live store to the snapshot
object itself; from the second candidate on the loop body and the
recursive calls mutate that object, so the third candidate "cd" sees
the domain of slot 1 pruned to `{"bus"}` by the second candidate's
propagation instead of the entry-state domains, and the search dead
ends on an emptied domain. -/
theorem claim_C2 :
    solve exCw = none ∧ CrosswordWF exCw ∧
      assignment_complete exCw exSol = true ∧ consistentB exCw exSol = true ∧
      AOK exCw exSol :=
  ⟨by decide, ⟨by decide, by decide, by decide, by decide⟩, by decide, by decide,
    by constructor <;> decide⟩

/-- C3 counterexample: on the one-slot puzzle `exCw1` the vocabulary
holds only a word of the wrong length, so node consistency empties the
slot's domain; yet the subsequent full `ac3` returns success (True)
with that domain empty — the worklist of an isolated slot is empty, so
no revision ever examines the empty domain.  `solve` still returns no
solution, but only by entering `backtrack`, contradicting both parts
of the claim. -/
theorem claim_C3_counterexample :
    (ac3 exCw1 (enforce_node_consistency exCw1 (initDomains exCw1)) none).2 = true ∧
    (ac3 exCw1 (enforce_node_consistency exCw1 (initDomains exCw1)) none).1 0 = [] ∧
    0 ∈ exCw1.vars ∧ solve exCw1 = none :=
  ⟨by decide, by decide, by decide, by decide⟩

/-- C3 (amended): whenever `ac3` returns success, every slot domain
that was non-empty when the call started is still non-empty — the only
emptying step is a revision, which makes `ac3` fail immediately.  (A
domain already empty on entry can survive undetected when no processed
arc revises it, as `claim_C3_counterexample` shows, so `solve` may
then enter — and at once fail out of — the backtracking search.) -/
theorem claim_C3 {cw : Crossword} {d d' : Domains}
    {arcs : Option (List (Nat × Nat))} (h : ac3 cw d arcs = (d', true)) :
    ∀ v, d v ≠ [] → d' v ≠ [] :=
  ac3_true_nonempty h

/-- Witness for C3 on the full `ac3` run of `exCw2`. -/
theorem claim_C3_witness :
    (ac3 exCw2 (enforce_node_consistency exCw2 (initDomains exCw2)) none
      = ((ac3 exCw2 (enforce_node_consistency exCw2 (initDomains exCw2)) none).1, true)) ∧
    (ac3 exCw2 (enforce_node_consistency exCw2 (initDomains exCw2)) none).1 0 ≠ [] :=
  ⟨rfl, @claim_C3 exCw2 (enforce_node_consistency exCw2 (initDomains exCw2))
      (ac3 exCw2 (enforce_node_consistency exCw2 (initDomains exCw2)) none).1 none
      rfl 0 (by decide)⟩

/-- C4: whenever `ac3` invoked with no explicit arc list returns
success, every ordered crossing pair `(x, y)` is arc consistent: each
word left in `domain(x)` has a word in `domain(y)` agreeing at the
overlap offsets. -/
theorem claim_C4 {cw : Crossword} {d d' : Domains} (hwf : CrosswordWF cw)
    (h : ac3 cw d none = (d', true)) :
    ∀ x y i j, cw.overlaps x y = some (i, j) →
      ∀ wx ∈ d' x, ∃ wy ∈ d' y, charAt wx i = charAt wy j := by
  intro x y i j ho
  exact ac3_none_sound hwf h x y i j ho

/-- Witness for C4 on the full `ac3` run of `exCw2`, instantiated at
the crossing pair (0, 1) and the word "ab" of slot 0's domain. -/
theorem claim_C4_witness :
    ['a', 'b'] ∈ (ac3 exCw2 (enforce_node_consistency exCw2 (initDomains exCw2)) none).1 0 ∧
    ∃ wy ∈ (ac3 exCw2 (enforce_node_consistency exCw2 (initDomains exCw2)) none).1 1,
      charAt ['a', 'b'] 0 = charAt wy 0 :=
  ⟨by decide,
   @claim_C4 exCw2 (enforce_node_consistency exCw2 (initDomains exCw2))
    (ac3 exCw2 (enforce_node_consistency exCw2 (initDomains exCw2)) none).1
    ⟨by decide, by decide, by decide, by decide⟩ rfl 0 1 0 0 rfl ['a', 'b'] (by decide)⟩

/-- C5 (code bug witness): with slot 1 already assigned "ab",
`order_domain_values(0, assignment)` still lists "ab" as a candidate
for slot 0.  The guard `if word in assignment: continue` on line 207
tests the word against the keys of the assignment dict, which are
`Variable` objects, so it never fires and used words are not
excluded. -/
theorem claim_C5 :
    lookupA [(1, ['a', 'b'])] 1 = some ['a', 'b'] ∧
    ['a', 'b'] ∈ order_domain_values exCw2
      (enforce_node_consistency exCw2 (initDomains exCw2)) [(1, ['a', 'b'])] 0 :=
  ⟨rfl, by decide⟩

/-- C6 counterexample: in the backtracking state reached at the root's
third candidate on `exCw` (domains `{0 ↦ {"bb"}, 1 ↦ {"bus"},
2 ↦ {"bus"}}` after the snapshot corruption, candidate "cd" for slot
0), the seeded arc-consistency call returns failure, while
`consistent` on the extended assignment passes — and the recursion on
line 263 is guarded solely by `consistent` (the `ac3` result on line
261 is discarded), so the search does descend. -/
theorem claim_C6_counterexample :
    (ac3 exCw
      (updateD (fun v => if v = 1 then [wbus] else if v = 2 then [wbus] else [wbb]) 0 [wcd])
      (some (get_arcs exCw 0 [(0, wcd)]))).2 = false ∧
    consistentB exCw [(0, wcd)] = true :=
  ⟨by decide, by decide⟩

/-- C6 (amended): `backtrack` ignores the result of the seeded `ac3`
call and recurses whenever `consistent` passes; however, when the
propagation has emptied the domain of some unassigned slot, the
recursive call fails immediately — the next node selects a slot of
minimal (zero) domain size, finds no candidate words, and returns
`None` leaving domains and assignment untouched — so the candidate is
still abandoned, one recursion level later than the claim states. -/
theorem claim_C6 {cw : Crossword} {d : Domains} {a : Assignment} {v : Nat}
    (hwf : CrosswordWF cw) (haok : AOK cw a) (hv : v ∈ cw.vars)
    (hva : assignedB a v = false) (hdv : d v = []) (fuel : Nat) :
    backtrack cw fuel d a = (none, d, a) :=
  backtrack_empty_unassigned hwf haok hv hva hdv fuel

/-- Witness for C6 in the state reached under the root's third
candidate of `exCw`: slot 1 is unassigned with an empty domain, and
the recursive `backtrack` call fails at once. -/
theorem claim_C6_witness :
    backtrack exCw 4
      (fun v => if v = 0 then [wcd] else if v = 1 then [] else [wbus]) [(0, wcd)] =
    (none, (fun v => if v = 0 then [wcd] else if v = 1 then [] else [wbus]), [(0, wcd)]) :=
  @claim_C6 exCw (fun v => if v = 0 then [wcd] else if v = 1 then [] else [wbus])
    [(0, wcd)] 1 ⟨by decide, by decide, by decide, by decide⟩
    ⟨by decide, by decide⟩ (by decide) (by decide) rfl 4

/-- C7: contract of `revise(x, y)`: with no overlap it is a no-op
returning False; with overlap offsets `(i, j)` it keeps exactly the
words of `domain(x)` having a compatible word in `domain(y)`, returns
True exactly when some word of `domain(x)` has no compatible word
(i.e. when at least one word is removed), and leaves every other
slot's domain unchanged. -/
theorem claim_C7 (cw : Crossword) (d : Domains) (x y : Nat) :
    (cw.overlaps x y = none → revise cw d x y = (d, false)) ∧
    (∀ i j, cw.overlaps x y = some (i, j) →
      (∀ w, w ∈ (revise cw d x y).1 x ↔
        w ∈ d x ∧ ∃ wy ∈ d y, charAt w i = charAt wy j) ∧
      ((revise cw d x y).2 = true ↔
        ∃ w ∈ d x, ∀ wy ∈ d y, charAt w i ≠ charAt wy j)) ∧
    (∀ z, z ≠ x → (revise cw d x y).1 z = d z) :=
  ⟨fun h => revise_of_none h,
   fun _ _ h => ⟨fun w => revise_mem h w, revise_snd_iff h⟩,
   fun _ hz => revise_fst_other d x y hz⟩

/-- Witness for C7 on the crossing pair (0, 1) of `exCw2`. -/
theorem claim_C7_witness :
    (['a', 'b'] ∈ (revise exCw2 (initDomains exCw2) 0 1).1 0 ↔
      ['a', 'b'] ∈ initDomains exCw2 0 ∧
        ∃ wy ∈ initDomains exCw2 1, charAt ['a', 'b'] 0 = charAt wy 0) ∧
    ((revise exCw2 (initDomains exCw2) 0 1).2 = true ↔
      ∃ w ∈ initDomains exCw2 0, ∀ wy ∈ initDomains exCw2 1,
        charAt w 0 ≠ charAt wy 0) :=
  ⟨((claim_C7 exCw2 (initDomains exCw2) 0 1).2.1 0 0 rfl).1 ['a', 'b'],
   ((claim_C7 exCw2 (initDomains exCw2) 0 1).2.1 0 0 rfl).2⟩

/-- C8: for every state with at least one unassigned slot,
`select_unassigned_variable` returns (it does not return nothing) an
unassigned slot of the puzzle whose domain size is minimal among the
unassigned slots and whose neighbor count is maximal among the
unassigned slots of that minimal size. -/
theorem claim_C8 {cw : Crossword} {d : Domains} {a : Assignment} {v : Nat}
    (hv : v ∈ cw.vars) (hva : assignedB a v = false) :
    select_unassigned_variable cw d a ≠ none ∧
    ∀ r, select_unassigned_variable cw d a = some r →
      r ∈ cw.vars ∧ assignedB a r = false ∧
      (∀ u ∈ cw.vars, assignedB a u = false → (d r).length ≤ (d u).length) ∧
      (∀ u ∈ cw.vars, assignedB a u = false → (d u).length = (d r).length →
        (cw.neighbors u).length ≤ (cw.neighbors r).length) := by
  constructor
  · obtain ⟨r, hr⟩ := @select_isSome cw d a v hv hva
    rw [hr]
    simp
  · intro r hr
    exact select_spec hr

/-- Witness for C8 on the initial state of `exCw`: the selected slot
is slot 0, the unique unassigned slot of maximal degree. -/
theorem claim_C8_witness :
    select_unassigned_variable exCw
      (enforce_node_consistency exCw (initDomains exCw)) [] ≠ none ∧
    (∀ u ∈ exCw.vars, assignedB [] u = false →
      ((enforce_node_consistency exCw (initDomains exCw)) 0).length ≤
        ((enforce_node_consistency exCw (initDomains exCw)) u).length) :=
  ⟨(@claim_C8 exCw (enforce_node_consistency exCw (initDomains exCw)) [] 0
      (by decide) (by decide)).1,
   ((@claim_C8 exCw (enforce_node_consistency exCw (initDomains exCw)) [] 0
      (by decide) (by decide)).2 0 rfl).2.2.1⟩

/-- C9: when `x` and `y` overlap, `domain(y)` is empty and `domain(x)`
is not, `revise(x, y)` removes every word of `domain(x)` (the
incompatibility holds vacuously) and returns True. -/
theorem claim_C9 {cw : Crossword} {d : Domains} {x y : Nat} {ov : Nat × Nat}
    (ho : cw.overlaps x y = some ov) (hy : d y = []) (hx : d x ≠ []) :
    (revise cw d x y).1 x = [] ∧ (revise cw d x y).2 = true := by
  obtain ⟨i, j⟩ := ov
  constructor
  · rw [List.eq_nil_iff_forall_not_mem]
    intro w hw
    obtain ⟨-, wy, hwy, -⟩ := (revise_mem ho w).1 hw
    rw [hy] at hwy
    cases hwy
  · rw [revise_snd_iff ho]
    obtain ⟨w, hw⟩ := List.exists_mem_of_ne_nil _ hx
    refine ⟨w, hw, ?_⟩
    intro wy hwy
    rw [hy] at hwy
    cases hwy

/-- Witness for C9 on `exCw2` with slot 1's domain emptied by hand. -/
theorem claim_C9_witness :
    (revise exCw2 (fun v => if v = 1 then [] else [['a', 'b']]) 0 1).1 0 = [] ∧
    (revise exCw2 (fun v => if v = 1 then [] else [['a', 'b']]) 0 1).2 = true :=
  claim_C9 rfl rfl (by decide)

/-- C10: for every assignment passed to `backtrack`, if the call
returns None then the assignment dict holds, on return, exactly the
entries it held on entry: every tentative binding pushed for the
selected slot is popped before the failure is returned. -/
theorem claim_C10 (cw : Crossword) (fuel : Nat) (d : Domains) (a : Assignment)
    (h : (backtrack cw fuel d a).1 = none) : (backtrack cw fuel d a).2.2 = a :=
  backtrack_restore fuel d a h

/-- Witness for C10 on the unsolvable one-slot puzzle `exCw1`. -/
theorem claim_C10_witness :
    (backtrack exCw1 2 (enforce_node_consistency exCw1 (initDomains exCw1)) []).1 = none ∧
    (backtrack exCw1 2 (enforce_node_consistency exCw1 (initDomains exCw1)) []).2.2 = [] :=
  ⟨by decide, claim_C10 exCw1 2 _ [] (by decide)⟩
